import Mathlib

/-!
Verification of the PhiCraft Minecraft agent's planning core against its
specification.  Source functions from `smeltingRecipes` (fuel arithmetic),
`furnaceManager` (fuel selection and smelting wait loop), `mine` (gather
loop), `buildExecutor` (placement ordering), `blockPlacer` (support
classification), `craft` (material gathering) and `server` (multi-step plan
execution) are embedded shallowly as executable Lean functions, and the
specification's claims about them are proved or refuted.
-/

namespace PhiCraft

/-! ## String containment

JavaScript `String.prototype.includes`, modelled on lists of characters. -/

/-- Does the second list occur at the head of the first? -/
def listStartsWith : List Char → List Char → Bool
  | _, [] => true
  | [], _ :: _ => false
  | a :: as, b :: bs => a == b && listStartsWith as bs

/-- Does the second list occur contiguously anywhere inside the first? -/
def listHasSub : List Char → List Char → Bool
  | [], pat => pat.isEmpty
  | s :: t, pat => listStartsWith (s :: t) pat || listHasSub t pat

/-- Model of JavaScript `s.includes(pat)`. -/
def strContains (s pat : String) : Bool :=
  listHasSub s.toList pat.toList

/-! ## Static fuel tables (`smeltingRecipes.js`)

`FUEL_VALUES` maps fuel item names to burn time in ticks; `FUEL_PRIORITY`
is the order in which `getBestAvailableFuel` scans the inventory. -/

def FUEL_VALUES : List (String × Nat) := [
  ("lava_bucket", 20000),
  ("coal_block", 16000),
  ("dried_kelp_block", 4000),
  ("blaze_rod", 2400),
  ("coal", 1600),
  ("charcoal", 1600),
  ("oak_log", 300),
  ("spruce_log", 300),
  ("birch_log", 300),
  ("jungle_log", 300),
  ("acacia_log", 300),
  ("dark_oak_log", 300),
  ("mangrove_log", 300),
  ("stripped_oak_log", 300),
  ("stripped_spruce_log", 300),
  ("stripped_birch_log", 300),
  ("stripped_jungle_log", 300),
  ("stripped_acacia_log", 300),
  ("stripped_dark_oak_log", 300),
  ("oak_planks", 300),
  ("spruce_planks", 300),
  ("birch_planks", 300),
  ("jungle_planks", 300),
  ("acacia_planks", 300),
  ("dark_oak_planks", 300),
  ("mangrove_planks", 300),
  ("stick", 100),
  ("wooden_pickaxe", 200),
  ("wooden_axe", 200),
  ("wooden_shovel", 200),
  ("wooden_sword", 200),
  ("wooden_hoe", 200),
  ("bowl", 100),
  ("wooden_door", 200),
  ("fence", 300),
  ("fence_gate", 300)]

def FUEL_PRIORITY : List String := [
  "coal",
  "charcoal",
  "coal_block",
  "dried_kelp_block",
  "blaze_rod",
  "oak_log",
  "spruce_log",
  "birch_log",
  "jungle_log",
  "acacia_log",
  "dark_oak_log",
  "mangrove_log",
  "oak_planks",
  "spruce_planks",
  "birch_planks",
  "jungle_planks",
  "acacia_planks",
  "dark_oak_planks",
  "stick"]

/-- Property lookup in a JavaScript object literal, modelled as an
association list. -/
def lookupEntry (table : List (String × Nat)) (key : String) : Option Nat :=
  (table.find? (fun e => e.1 == key)).map (fun e => e.2)

/-- Model of `getFuelValue(itemName)`: `FUEL_VALUES[itemName] || 0`. -/
def getFuelValue (itemName : String) : Nat :=
  (lookupEntry FUEL_VALUES itemName).getD 0

/-- Model of `isFuel(itemName)`: `itemName in FUEL_VALUES`. -/
def isFuel (itemName : String) : Bool :=
  (lookupEntry FUEL_VALUES itemName).isSome

/-- Model of `calculateSmeltableItems(fuelName, fuelCount)`:
`Math.floor(fuelValue * fuelCount / 200)`. -/
def calculateSmeltableItems (fuelName : String) (fuelCount : Nat) : Nat :=
  getFuelValue fuelName * fuelCount / 200

/-- Model of `calculateFuelNeeded(fuelName, itemCount)`:
`Math.ceil(itemCount * 200 / fuelValue)`, returning `Infinity` (here `none`)
when the fuel value is `0`. -/
def calculateFuelNeeded (fuelName : String) (itemCount : Nat) : Option Nat :=
  let v := getFuelValue fuelName
  if v = 0 then none else some ((itemCount * 200 + v - 1) / v)

/-- Ceiling division `(a + v - 1) / v` covers `a` and is the least such
count. -/
theorem ceil_div_spec (a v : Nat) (hv : 0 < v) :
    a ≤ v * ((a + v - 1) / v) ∧ ∀ j, a ≤ j * v → (a + v - 1) / v ≤ j := by
  constructor
  · have h1 := Nat.div_add_mod (a + v - 1) v
    have h2 : (a + v - 1) % v < v := Nat.mod_lt _ hv
    omega
  · intro j hj
    rw [Nat.div_le_iff_le_mul_add_pred hv]
    rw [Nat.mul_comm j v] at hj
    omega

/-- C1: for every fuel with positive burn-tick value, `calculateFuelNeeded`
returns the ceiling `⌈n·200 / fuel_ticks⌉`, i.e. the least fuel count whose
total burn ticks cover the `n·200` ticks needed; in particular smelting 4
items with `oak_log` fuel requires exactly 3 logs. -/
theorem calculateFuelNeeded_is_ceil :
    (∀ f n, 0 < getFuelValue f →
      ∃ k, calculateFuelNeeded f n = some k ∧
        n * 200 ≤ k * getFuelValue f ∧
        ∀ j, n * 200 ≤ j * getFuelValue f → k ≤ j) ∧
    calculateFuelNeeded "oak_log" 4 = some 3 := by
  constructor
  · intro f n hv
    refine ⟨(n * 200 + getFuelValue f - 1) / getFuelValue f, ?_, ?_, ?_⟩
    · simp [calculateFuelNeeded, Nat.pos_iff_ne_zero.mp hv]
    · have h := (ceil_div_spec (n * 200) (getFuelValue f) hv).1
      rw [Nat.mul_comm ((n * 200 + getFuelValue f - 1) / getFuelValue f) (getFuelValue f)]
      exact h
    · intro j hj
      exact (ceil_div_spec (n * 200) (getFuelValue f) hv).2 j hj
  · rfl

/-- C1 witness: the hypotheses hold at `coal`, `5`. -/
theorem calculateFuelNeeded_is_ceil_witness :
    0 < getFuelValue "coal" ∧
    ∃ k, calculateFuelNeeded "coal" 5 = some k ∧
      5 * 200 ≤ k * getFuelValue "coal" ∧
      ∀ j, 5 * 200 ≤ j * getFuelValue "coal" → k ≤ j :=
  ⟨by decide, calculateFuelNeeded_is_ceil.1 "coal" 5 (by decide)⟩

/-- C10: the fuel requirement is always sufficient: with
`calculateFuelNeeded f n` units of fuel `f` (positive burn value), the
number of smeltable items `calculateSmeltableItems` reports is at least
`n`. -/
theorem fuelNeeded_sufficient :
    ∀ f n, 0 < getFuelValue f →
      ∃ k, calculateFuelNeeded f n = some k ∧
        n ≤ calculateSmeltableItems f k := by
  intro f n hv
  refine ⟨(n * 200 + getFuelValue f - 1) / getFuelValue f, ?_, ?_⟩
  · simp [calculateFuelNeeded, Nat.pos_iff_ne_zero.mp hv]
  · unfold calculateSmeltableItems
    rw [Nat.le_div_iff_mul_le (by norm_num : (0 : ℕ) < 200)]
    exact (ceil_div_spec (n * 200) (getFuelValue f) hv).1

/-- C10 witness: the hypothesis holds at `stick`, `7`. -/
theorem fuelNeeded_sufficient_witness :
    0 < getFuelValue "stick" ∧
    ∃ k, calculateFuelNeeded "stick" 7 = some k ∧
      7 ≤ calculateSmeltableItems "stick" k :=
  ⟨by decide, fuelNeeded_sufficient "stick" 7 (by decide)⟩

/-! ## Inventory and fuel selection (`furnaceManager.js`, SmeltingManager)

The bot inventory is the ordered list of stacks returned by
`bot.inventory.items()`; each stack is a name with a count. -/

abbrev Inventory := List (String × Nat)

/-- Model of `inventory.items().find(item => item.name === name)`, projected to the
stack count. -/
def invFind (inv : Inventory) (name : String) : Option Nat :=
  (inv.find? (fun s => s.1 == name)).map (fun s => s.2)

/-- Model of `bot.inventory.count(id)`: total held across all stacks of the item. -/
def invCount (inv : Inventory) (name : String) : Nat :=
  ((inv.filter (fun s => s.1 == name)).map (fun s => s.2)).sum

/-- Model of `SmeltingManager.getBestAvailableFuel`: scan `FUEL_PRIORITY` for the
first fuel present in the inventory; failing that, return the first
inventory stack whose item is any fuel. -/
def getBestAvailableFuel (inv : Inventory) : Option (String × Nat) :=
  match FUEL_PRIORITY.findSome? (fun f => (invFind inv f).map (fun c => (f, c))) with
  | some r => some r
  | none => inv.find? (fun s => isFuel s.1)

/-- Outcome of the fuel check in `SmeltingManager.ensureFuel`. -/
inductive FuelDecision where
  /-- Enough of the chosen fuel is already held. -/
  | enough (fuel : String) (held : Nat)
  /-- The chosen fuel is held but short by `needed`; `gatherFuel` is
  invoked for the difference. -/
  | gatherMore (fuel : String) (needed : Nat)
  /-- The chosen fuel has burn value 0, so `calculateFuelNeeded` returned
  `Infinity` and the comparison always fails. -/
  | gatherUnbounded (fuel : String)
  /-- No fuel held at all: `gatherDefaultFuel` runs. -/
  | gatherDefault
deriving DecidableEq, Repr

/-- Decision structure of `SmeltingManager.ensureFuel(itemCount)`. -/
def ensureFuelDecision (inv : Inventory) (itemCount : Nat) : FuelDecision :=
  match getBestAvailableFuel inv with
  | some (name, cnt) =>
    match calculateFuelNeeded name itemCount with
    | some need => if need ≤ cnt then .enough name cnt else .gatherMore name (need - cnt)
    | none => .gatherUnbounded name
  | none => .gatherDefault

/-- Mining or crafting adds items to the inventory: merge into the first
stack of the same name, else append a new stack. -/
def invAdd : Inventory → String → Nat → Inventory
  | [], name, k => [(name, k)]
  | s :: rest, name, k =>
    if s.1 == name then (s.1, s.2 + k) :: rest else s :: invAdd rest name k

/-- Inventory reaching the nested `smeltItem('charcoal', amount)` issued by
`SmeltingManager.gatherFuel('charcoal', amount)`: the branch first gathers
`Math.ceil(amount / 2)` oak logs, and the nested smelt's
`ensureInputMaterials` then tops the oak logs up to the `amount` needed as
smelting input. -/
def gatherFuelCharcoalInventory (inv : Inventory) (amount : Nat) : Inventory :=
  let afterLogs := invAdd inv "oak_log" ((amount + 1) / 2)
  let held := invCount afterLogs "oak_log"
  if amount ≤ held then afterLogs else invAdd afterLogs "oak_log" (amount - held)

/-- C3 counterexample: with inventory `blaze_rod × 1, oak_log × 64` and a
1-item smelt, the code selects `blaze_rod` — a fuel that is not in the
claimed priority order coal > charcoal > log > plank > stick at all — even
though 64 oak logs are held and only 1 is needed. -/
theorem getBestAvailableFuel_ignores_requirement :
    getBestAvailableFuel [("blaze_rod", 1), ("oak_log", 64)] = some ("blaze_rod", 1) ∧
    invFind [("blaze_rod", 1), ("oak_log", 64)] "oak_log" = some 64 ∧
    calculateFuelNeeded "oak_log" 1 = some 1 ∧
    "blaze_rod" ≠ "coal" ∧ "blaze_rod" ≠ "charcoal" ∧ "blaze_rod" ≠ "stick" ∧
    strContains "blaze_rod" "log" = false ∧
    strContains "blaze_rod" "plank" = false := by
  decide

theorem findSome_split {α β : Type} (f : α → Option β) :
    ∀ (l : List α) (b : β), l.findSome? f = some b →
      ∃ l1 a l2, l = l1 ++ a :: l2 ∧ f a = some b ∧ ∀ x ∈ l1, f x = none := by
  intro l
  induction l with
  | nil => intro b h; simp [List.findSome?] at h
  | cons a as ih =>
    intro b h
    rw [List.findSome?_cons] at h
    cases hfa : f a with
    | some c =>
      rw [hfa] at h
      exact ⟨[], a, as, by simp, by rw [hfa]; exact h, by simp⟩
    | none =>
      rw [hfa] at h
      obtain ⟨l1, x, l2, hl, hx, hnone⟩ := ih b h
      refine ⟨a :: l1, x, l2, by simp [hl], hx, ?_⟩
      intro y hy
      rcases List.mem_cons.mp hy with rfl | hy
      · exact hfa
      · exact hnone y hy

theorem find_split {α : Type} (p : α → Bool) :
    ∀ (l : List α) (a : α), l.find? p = some a →
      ∃ l1 l2, l = l1 ++ a :: l2 ∧ p a = true ∧ ∀ x ∈ l1, p x = false := by
  intro l
  induction l with
  | nil => intro a h; simp at h
  | cons b bs ih =>
    intro a h
    by_cases hb : p b = true
    · rw [List.find?_cons_of_pos _ hb] at h
      obtain rfl : b = a := by injection h
      exact ⟨[], bs, by simp, hb, by simp⟩
    · rw [List.find?_cons_of_neg _ hb] at h
      obtain ⟨l1, l2, hl, ha, hnone⟩ := ih a h
      refine ⟨b :: l1, l2, by simp [hl], ha, ?_⟩
      intro y hy
      rcases List.mem_cons.mp hy with rfl | hy
      · simpa using hb
      · exact hnone y hy

theorem fuelPriority_pos : ∀ p ∈ FUEL_PRIORITY, 0 < getFuelValue p := by
  decide

theorem isFuel_pos (name : String) (h : isFuel name = true) :
    0 < getFuelValue name := by
  unfold isFuel lookupEntry at h
  unfold getFuelValue lookupEntry
  cases hf : FUEL_VALUES.find? (fun e => e.1 == name) with
  | none => rw [hf] at h; simp at h
  | some e =>
    have hmem : e ∈ FUEL_VALUES := List.mem_of_find?_eq_some hf
    have hpos : ∀ x ∈ FUEL_VALUES, 0 < x.2 := by decide
    simp [hf]
    exact hpos e hmem

/-- C3 amended: the fuel `getBestAvailableFuel` selects is held and has a
positive burn value, and it is the first fuel of the source's
`FUEL_PRIORITY` list (coal, charcoal, coal_block, dried_kelp_block,
blaze_rod, logs, planks, stick) present in the inventory — mere presence,
not `held + gatherable ≥ fuel_needed`; if no priority fuel is held, it is
the first held stack whose item is any fuel. -/
theorem getBestAvailableFuel_props :
    ∀ (inv : Inventory) (name : String) (cnt : Nat),
      getBestAvailableFuel inv = some (name, cnt) →
      0 < getFuelValue name ∧
      ((∃ l1 l2, FUEL_PRIORITY = l1 ++ name :: l2 ∧ invFind inv name = some cnt ∧
          ∀ p ∈ l1, invFind inv p = none) ∨
       ((∀ p ∈ FUEL_PRIORITY, invFind inv p = none) ∧
        ∃ i1 s i2, inv = i1 ++ s :: i2 ∧ s = (name, cnt) ∧
          ∀ t ∈ i1, getFuelValue t.1 = 0)) := by
  intro inv name cnt h
  unfold getBestAvailableFuel at h
  cases hp : FUEL_PRIORITY.findSome? (fun f => (invFind inv f).map (fun c => (f, c))) with
  | some r =>
    rw [hp] at h
    obtain rfl : r = (name, cnt) := by injection h
    obtain ⟨l1, a, l2, hl, ha, hnone⟩ := findSome_split _ _ _ hp
    cases hia : invFind inv a with
    | none => rw [hia] at ha; simp at ha
    | some c =>
      rw [hia] at ha
      simp only [Option.map_some'] at ha
      obtain ⟨rfl, rfl⟩ : name = a ∧ cnt = c := by
        injection ha with ha2
        exact ⟨(congrArg Prod.fst ha2).symm, (congrArg Prod.snd ha2).symm⟩
      have hmem : name ∈ FUEL_PRIORITY := by rw [hl]; simp
      refine ⟨fuelPriority_pos name hmem, Or.inl ⟨l1, l2, hl, hia, ?_⟩⟩
      intro p hpmem
      have := hnone p hpmem
      exact Option.map_eq_none'.mp this
  | none =>
    rw [hp] at h
    obtain ⟨i1, i2, hl, hs, hnone⟩ := find_split _ _ _ h
    have hall := List.findSome?_eq_none_iff.mp hp
    constructor
    · exact isFuel_pos name (by simpa using hs)
    · refine Or.inr ⟨?_, i1, (name, cnt), i2, hl, rfl, ?_⟩
      · intro p hpmem
        exact Option.map_eq_none'.mp (hall p hpmem)
      · intro t ht
        have hnf := hnone t ht
        unfold isFuel at hnf
        unfold getFuelValue
        cases hlk : lookupEntry FUEL_VALUES t.1 with
        | none => rfl
        | some v => rw [hlk] at hnf; simp at hnf

/-- C3 amended witness: the hypothesis holds at inventory `coal × 3`. -/
theorem getBestAvailableFuel_props_witness :
    getBestAvailableFuel [("coal", 3)] = some ("coal", 3) ∧
    (0 < getFuelValue "coal" ∧
     ((∃ l1 l2, FUEL_PRIORITY = l1 ++ "coal" :: l2 ∧
         invFind [("coal", 3)] "coal" = some 3 ∧
         ∀ p ∈ l1, invFind [("coal", 3)] p = none) ∨
      ((∀ p ∈ FUEL_PRIORITY, invFind [("coal", 3)] p = none) ∧
       ∃ i1 s i2, ([("coal", 3)] : Inventory) = i1 ++ s :: i2 ∧ s = ("coal", 3) ∧
         ∀ t ∈ i1, getFuelValue t.1 = 0))) :=
  ⟨by decide, getBestAvailableFuel_props [("coal", 3)] "coal" 3 (by decide)⟩

/-- C2: the charcoal fuel recursion is not bounded to one level and the
nested smelt's fuel is not fixed to logs.  With inventory `charcoal × 1`
and a 144-item smelt, `ensureFuel` chooses charcoal and calls
`gatherFuel('charcoal', 17)`; inside the nested `smeltItem('charcoal', 17)`
the fuel is re-selected by priority — charcoal again, not the gathered oak
logs — and, still being short, a second-level `gatherFuel('charcoal', 2)`
(hence a second nested charcoal smelt) is issued. -/
theorem charcoal_fuel_recursion :
    ensureFuelDecision [("charcoal", 1)] 144 = .gatherMore "charcoal" 17 ∧
    getBestAvailableFuel (gatherFuelCharcoalInventory [("charcoal", 1)] 17) =
      some ("charcoal", 1) ∧
    ensureFuelDecision (gatherFuelCharcoalInventory [("charcoal", 1)] 17) 17 =
      .gatherMore "charcoal" 2 := by
  decide

/-! ## Build order (`buildExecutor.js`, BuildExecutor.sortBlocksByBuildOrder) -/

/-- A blueprint voxel: relative coordinates, block name and placement
properties. -/
structure BBlock where
  x : Int
  y : Int
  z : Int
  name : String
  props : List (String × String)
deriving DecidableEq, Repr

/-- The JavaScript sort comparator: negative when `a` precedes `b`. -/
def buildCmp (a b : BBlock) : Int :=
  if a.y ≠ b.y then a.y - b.y
  else if a.x ≠ b.x then a.x - b.x
  else a.z - b.z

/-- Model of `BuildExecutor.sortBlocksByBuildOrder(blocks, layerByLayer)`: a stable
sort of a copy of the list by the comparator, or the unsorted copy when
layer-by-layer is disabled. -/
def sortBlocksByBuildOrder (blocks : List BBlock) (layerByLayer : Bool) : List BBlock :=
  if layerByLayer then blocks.mergeSort (fun a b => buildCmp a b ≤ 0) else blocks

/-- Lexicographic order on (y, x, z), the order the spec prescribes. -/
def lexLE (a b : BBlock) : Prop :=
  a.y < b.y ∨ (a.y = b.y ∧ (a.x < b.x ∨ (a.x = b.x ∧ a.z ≤ b.z)))

theorem buildCmp_le_iff (a b : BBlock) : buildCmp a b ≤ 0 ↔ lexLE a b := by
  unfold buildCmp lexLE
  by_cases hy : a.y = b.y
  · by_cases hx : a.x = b.x
    · simp [hy, hx]
    · simp [hy, hx]
      omega
  · simp [hy]
    omega

theorem lexLE_trans {a b c : BBlock} (h1 : lexLE a b) (h2 : lexLE b c) :
    lexLE a c := by
  unfold lexLE at h1 h2 ⊢
  omega

theorem lexLE_total (a b : BBlock) : lexLE a b ∨ lexLE b a := by
  unfold lexLE
  omega

/-- C4: with layer-by-layer enabled, the generated placement order is a
permutation of the blueprint's block list sorted lexicographically by
(y asc, x asc, z asc); consequently it visits voxels in non-decreasing y. -/
theorem sortBlocksByBuildOrder_sorted :
    ∀ blocks : List BBlock,
      (sortBlocksByBuildOrder blocks true).Perm blocks ∧
      List.Sorted lexLE (sortBlocksByBuildOrder blocks true) ∧
      List.Sorted (fun p q => p ≤ q)
        ((sortBlocksByBuildOrder blocks true).map (fun b => b.y)) := by
  intro blocks
  have hred : sortBlocksByBuildOrder blocks true =
      blocks.mergeSort (fun a b => buildCmp a b ≤ 0) := by
    unfold sortBlocksByBuildOrder
    simp
  have htrans : ∀ a b c : BBlock,
      (decide (buildCmp a b ≤ 0)) = true → (decide (buildCmp b c ≤ 0)) = true →
      (decide (buildCmp a c ≤ 0)) = true := by
    intro a b c h1 h2
    simp only [decide_eq_true_eq] at h1 h2 ⊢
    exact (buildCmp_le_iff a c).mpr
      (lexLE_trans ((buildCmp_le_iff a b).mp h1) ((buildCmp_le_iff b c).mp h2))
  have htotal : ∀ a b : BBlock,
      ((decide (buildCmp a b ≤ 0)) || (decide (buildCmp b a ≤ 0))) = true := by
    intro a b
    simp only [Bool.or_eq_true, decide_eq_true_eq]
    rcases lexLE_total a b with h | h
    · exact Or.inl ((buildCmp_le_iff a b).mpr h)
    · exact Or.inr ((buildCmp_le_iff b a).mpr h)
  have hpair := List.sorted_mergeSort htrans htotal blocks
  have hsorted : List.Sorted lexLE (sortBlocksByBuildOrder blocks true) := by
    rw [hred]
    exact hpair.imp (fun hab => (buildCmp_le_iff _ _).mp (by simpa using hab))
  refine ⟨?_, hsorted, ?_⟩
  · rw [hred]
    exact List.mergeSort_perm blocks _
  · rw [List.Sorted, List.pairwise_map]
    exact hsorted.imp (fun hab => by
      unfold lexLE at hab
      omega)

/-! ## Support classification (`blockPlacer.js`, BlockPlacer.isValidSolidSupport) -/

/-- The source's list of invalid-support name patterns (non-solid blocks,
plants, non-cubes, containers). -/
def invalidSupports : List String := [
  "air", "water", "lava", "cave_air",
  "grass", "tall_grass", "fern", "dead_bush", "seagrass",
  "dandelion", "poppy", "blue_orchid", "allium", "azure_bluet",
  "rose_bush", "sunflower", "lilac", "peony",
  "wheat", "carrots", "potatoes", "beetroots",
  "sugar_cane", "cactus", "bamboo",
  "stairs", "slab", "door", "trapdoor", "bed",
  "fence", "gate", "ladder", "vine",
  "torch", "wall_torch", "lantern",
  "button", "lever", "pressure_plate",
  "rail", "powered_rail", "detector_rail", "activator_rail",
  "carpet", "snow",
  "glass_pane", "iron_bars",
  "chest", "barrel", "furnace", "crafting_table",
  "hopper", "dropper", "dispenser",
  "pane", "bars"]

/-- The source's explicit whitelist of full solid cubes. -/
def validSolidBlocks : List String := [
  "dirt", "grass_block", "stone", "cobblestone",
  "bedrock", "sand", "gravel", "sandstone",
  "netherrack", "mycelium", "podzol", "coarse_dirt",
  "clay", "terracotta", "concrete", "wool",
  "deepslate", "tuff", "dripstone_block",
  "snow_block", "ice", "packed_ice", "blue_ice"]

/-- Model of `BlockPlacer.isValidSolidSupport(block)` over the block's name and
bounding box.  The per-pattern loop returns false exactly when some
invalid pattern is contained in the name and the name is neither
`grass_block` nor the excepted `snow_block`. -/
def isValidSolidSupport (name : String) (boundingBox : Option String) : Bool :=
  if name == "air" then false
  else if invalidSupports.any (fun p => strContains name p) &&
          name != "grass_block" && name != "snow_block" then false
  else if validSolidBlocks.contains name then true
  else if strContains name "_planks" || strContains name "_log" ||
          strContains name "_ore" ||
          (strContains name "_block" && !(strContains name "_slab")) then true
  else
    match boundingBox with
    | some bb => if bb == "empty" || bb == "block" then bb == "block" else true
    | none => true

/-- The blacklist patterns the claim asserts (the code's list has no
`sign` entry). -/
def claimBlacklist : List String := [
  "stairs", "slab", "door", "trapdoor", "fence", "gate", "ladder", "torch",
  "button", "lever", "rail", "carpet", "pane", "bars", "chest", "barrel",
  "furnace", "crafting_table", "pressure_plate", "bed"]

/-- C5 counterexample: `oak_sign` matches the claimed blacklist pattern
`sign` yet the classifier accepts it (when no bounding box is known), and
`bamboo_planks` matches the pattern rule `*_planks` and none of the
claimed blacklist patterns yet the classifier rejects it (the code
blacklists the plant pattern `bamboo`). -/
theorem isValidSolidSupport_claim_fails :
    isValidSolidSupport "oak_sign" none = true ∧
    strContains "oak_sign" "sign" = true ∧
    isValidSolidSupport "bamboo_planks" none = false ∧
    strContains "bamboo_planks" "_planks" = true ∧
    claimBlacklist.all (fun p => !(strContains "bamboo_planks" p)) = true := by
  decide

theorem claimBlacklist_subset : ∀ p ∈ claimBlacklist, p ∈ invalidSupports := by
  decide

/-- C5 amended: names matching one of the blacklist patterns that the code
actually tests (the claimed list minus `sign`) are rejected, except for
the explicit `grass_block`/`snow_block` strings; the whitelisted full
cubes are accepted; names matching `*_planks`, `*_log` or `*_ore` that
match none of the source's invalid patterns are accepted; and `snow_block`
is a valid support while the `snow` layer is not. -/
theorem isValidSolidSupport_classification :
    (∀ (name : String) (bb : Option String) (p : String), p ∈ claimBlacklist →
      strContains name p = true → name ≠ "grass_block" → name ≠ "snow_block" →
      isValidSolidSupport name bb = false) ∧
    (∀ bb : Option String,
      isValidSolidSupport "stone" bb = true ∧
      isValidSolidSupport "dirt" bb = true ∧
      isValidSolidSupport "grass_block" bb = true ∧
      isValidSolidSupport "deepslate" bb = true ∧
      isValidSolidSupport "wool" bb = true ∧
      isValidSolidSupport "terracotta" bb = true ∧
      isValidSolidSupport "concrete" bb = true ∧
      isValidSolidSupport "snow_block" bb = true ∧
      isValidSolidSupport "ice" bb = true ∧
      isValidSolidSupport "packed_ice" bb = true ∧
      isValidSolidSupport "blue_ice" bb = true) ∧
    (∀ (name : String) (bb : Option String),
      invalidSupports.all (fun p => !(strContains name p)) = true →
      (strContains name "_planks" || strContains name "_log" ||
        strContains name "_ore") = true →
      isValidSolidSupport name bb = true) ∧
    (∀ bb : Option String, isValidSolidSupport "snow" bb = false) := by
  refine ⟨?_, ?_, ?_, ?_⟩
  · intro name bb p hp hc hg hs
    cases h1 : (name == "air") with
    | true => simp [isValidSolidSupport, h1]
    | false =>
      have hany : invalidSupports.any (fun q => strContains name q) = true :=
        List.any_eq_true.mpr ⟨p, claimBlacklist_subset p hp, hc⟩
      have h2 : (invalidSupports.any (fun q => strContains name q) &&
          name != "grass_block" && name != "snow_block") = true := by
        rw [Bool.and_eq_true, Bool.and_eq_true]
        refine ⟨⟨hany, ?_⟩, ?_⟩
        · simpa [bne_iff_ne] using hg
        · simpa [bne_iff_ne] using hs
      simp [isValidSolidSupport, h1, h2]
  · intro bb
    exact ⟨rfl, rfl, rfl, rfl, rfl, rfl, rfl, rfl, rfl, rfl, rfl⟩
  · intro name bb hall hpat
    have hall' : ∀ q ∈ invalidSupports, strContains name q = false := by
      intro q hq
      have := List.all_eq_true.mp hall q hq
      simpa using this
    have h1 : (name == "air") = false := by
      cases hb : (name == "air") with
      | false => rfl
      | true =>
        exfalso
        have hname : name = "air" := by simpa using hb
        have h2 := hall' "air" (by decide)
        rw [hname] at h2
        have h3 : strContains "air" "air" = true := by decide
        rw [h3] at h2
        exact Bool.true_eq_false.mp h2
    have hany : invalidSupports.any (fun q => strContains name q) = false := by
      cases ha : invalidSupports.any (fun q => strContains name q) with
      | false => rfl
      | true =>
        exfalso
        obtain ⟨q, hq, hcq⟩ := List.any_eq_true.mp ha
        rw [hall' q hq] at hcq
        exact Bool.false_eq_true.mp hcq
    have hpat4 : (strContains name "_planks" || strContains name "_log" ||
        strContains name "_ore" ||
        (strContains name "_block" && !(strContains name "_slab"))) = true := by
      simp only [Bool.or_eq_true] at hpat ⊢
      tauto
    cases hw : validSolidBlocks.contains name with
    | true =>
      have hmem : name ∈ validSolidBlocks := by simpa using hw
      simp [isValidSolidSupport, h1, hany, hmem]
    | false => simp [isValidSolidSupport, h1, hany, hw, hpat4]
  · intro bb
    rfl

/-- C5 amended witness: the hypotheses hold at `oak_stairs` (blacklist),
and at `iron_ore` (pattern rule). -/
theorem isValidSolidSupport_classification_witness :
    ("stairs" ∈ claimBlacklist ∧ strContains "oak_stairs" "stairs" = true ∧
      isValidSolidSupport "oak_stairs" none = false) ∧
    (invalidSupports.all (fun p => !(strContains "iron_ore" p)) = true ∧
      isValidSolidSupport "iron_ore" (some "block") = true) :=
  ⟨⟨by decide, by decide,
    isValidSolidSupport_classification.1 "oak_stairs" none "stairs" (by decide)
      (by decide) (by decide) (by decide)⟩,
   ⟨by decide,
    isValidSolidSupport_classification.2.2.1 "iron_ore" (some "block") (by decide)
      (by decide)⟩⟩

/-! ## Material gathering (`furnaceManager.js` ensureInputMaterials,
`craft.js` gatherMaterial) -/

/-- A mine or craft operation emitted while gathering materials. -/
inductive GatherStep where
  | mineBlocks (block : String) (count : Nat)
  | craftItems (item : String) (count : Nat)
deriving DecidableEq, Repr

/-- The `blockMappings` table of
`SmeltingManager.gatherInputMaterial`. -/
def blockMappings : List (String × String) := [
  ("raw_iron", "iron_ore"),
  ("raw_gold", "gold_ore"),
  ("raw_copper", "copper_ore"),
  ("iron_ore", "iron_ore"),
  ("gold_ore", "gold_ore"),
  ("copper_ore", "copper_ore"),
  ("sand", "sand"),
  ("stone", "stone"),
  ("netherrack", "netherrack"),
  ("clay", "clay"),
  ("ancient_debris", "ancient_debris")]

/-- Model of `SmeltingManager.gatherInputMaterial(itemName, amount)`: mine the
mapped block, or the log itself for `*_log` items, else fail. -/
def gatherInputMaterialPlan (itemName : String) (amount : Nat) :
    Except String (List GatherStep) :=
  match (blockMappings.find? (fun e => e.1 == itemName)).map (fun e => e.2) with
  | some b => .ok [.mineBlocks b amount]
  | none =>
    if strContains itemName "_log" then .ok [.mineBlocks itemName amount]
    else .error ("Cannot gather " ++ itemName ++ " - no mining method available")

/-- Model of `SmeltingManager.ensureInputMaterials(inputItem, amount)`: return at
once when the held count suffices, otherwise gather the difference. -/
def ensureInputMaterialsPlan (inv : Inventory) (inputItem : String) (amount : Nat) :
    Except String (List GatherStep) :=
  let currentCount := invCount inv inputItem
  if amount ≤ currentCount then .ok []
  else gatherInputMaterialPlan inputItem (amount - currentCount)

/-- The `blockMappings` table of `craft.js` `mineForItem`; `none` value
marks craft-only items. -/
def craftMineMappings : List (String × Option String) := [
  ("oak_log", some "oak_log"),
  ("spruce_log", some "spruce_log"),
  ("birch_log", some "birch_log"),
  ("cobblestone", some "stone"),
  ("coal", some "coal_ore"),
  ("iron_ingot", some "iron_ore"),
  ("diamond", some "diamond_ore"),
  ("stick", none),
  ("oak_planks", none)]

/-- Model of `craft.js` `mineForItem(itemName, amount)` as the plan step it emits. -/
def mineForItemPlan (itemName : String) (amount : Nat) :
    Except String (List GatherStep) :=
  match (craftMineMappings.find? (fun e => e.1 == itemName)).map (fun e => e.2) with
  | some none => .error ("Cannot mine " ++ itemName ++ " - must be crafted")
  | some (some b) => .ok [.mineBlocks b amount]
  | none => .ok [.mineBlocks itemName amount]

/-- Model of `craft.js` `gatherMaterial(itemName, amount)`: return at once when the
held count suffices; else craft the difference when a recipe exists, else
mine for it. -/
def gatherMaterialPlan (inv : Inventory) (itemName : String) (amount : Nat)
    (hasRecipe : Bool) : Except String (List GatherStep) :=
  let held := invCount inv itemName
  if amount ≤ held then .ok []
  else if hasRecipe then .ok [.craftItems itemName (amount - held)]
  else mineForItemPlan itemName (amount - held)

/-- C6: when the inventory already holds at least the requested amount,
both material-gathering entry points return immediately with the empty
plan — no mine or craft operation is emitted, and the inventory is
untouched. -/
theorem gather_skips_when_satisfied :
    ∀ (inv : Inventory) (item : String) (n : Nat) (hasRecipe : Bool),
      n ≤ invCount inv item →
      ensureInputMaterialsPlan inv item n = .ok [] ∧
      gatherMaterialPlan inv item n hasRecipe = .ok [] := by
  intro inv item n hasRecipe h
  constructor
  · unfold ensureInputMaterialsPlan
    simp [h]
  · unfold gatherMaterialPlan
    simp [h]

/-- C6 witness: the hypothesis holds with 5 raw iron held and 3 needed. -/
theorem gather_skips_when_satisfied_witness :
    3 ≤ invCount [("raw_iron", 5)] "raw_iron" ∧
    (ensureInputMaterialsPlan [("raw_iron", 5)] "raw_iron" 3 = .ok [] ∧
     gatherMaterialPlan [("raw_iron", 5)] "raw_iron" 3 false = .ok []) :=
  ⟨by decide, gather_skips_when_satisfied [("raw_iron", 5)] "raw_iron" 3 false (by decide)⟩

/-! ## Mining loop (`mine.js`, mine) -/

/-- Model of `maxDistance` passed to `findBlock` in each iteration of the mining
loop. -/
def mineMaxDistance : Nat := 64

/-- The object returned by `mine(bot, { blockType, count })`. -/
structure MineResult where
  success : Bool
  minedCount : Nat
  message : String
deriving DecidableEq, Repr

/-- The mining loop: `iters` iterations remain, `avail` blocks of the
target type are still findable within `mineMaxDistance`.  Returns the
mined count and the number of `findBlock` searches issued; the loop breaks
(without error) at the first failed search. -/
def mineLoop : Nat → Nat → Nat × Nat
  | 0, _ => (0, 0)
  | iters + 1, avail =>
    if avail = 0 then (0, 1)
    else
      let r := mineLoop iters (avail - 1)
      (r.1 + 1, r.2 + 1)

/-- Model of `mine(bot, { blockType, count })` with `avail` target blocks findable
within `mineMaxDistance`: the result object and the number of searches. -/
def mineRun (avail : Nat) (count : Nat) (blockType : String) : MineResult × Nat :=
  let r := mineLoop count avail
  ({ success := true,
     minedCount := r.1,
     message := "Mined " ++ toString r.1 ++ "/" ++ toString count ++ " " ++
       blockType ++ " blocks" }, r.2)

/-- C7 counterexample: with no target block findable, the action stops
early but returns `success: true` with the partial count — it does not
terminate with a `ResourceExhausted` (or any) error. -/
theorem mine_no_error_on_exhaustion :
    (mineRun 0 3 "iron_ore").1 =
      { success := true, minedCount := 0, message := "Mined 0/3 iron_ore blocks" } ∧
    (mineRun 0 3 "iron_ore").2 = 1 := by
  decide

theorem mineLoop_spec : ∀ count avail,
    mineLoop count avail = (min avail count, min count (avail + 1)) := by
  intro count
  induction count with
  | zero => intro avail; simp [mineLoop]
  | succ c ih =>
    intro avail
    cases avail with
    | zero => simp [mineLoop]
    | succ a =>
      have h := ih a
      simp [mineLoop, h]
      omega

/-- C7 amended: each loop iteration searches for the block within maximum
distance 64; when the blocks run out the loop terminates early at the
first failed search, but the action still returns `success: true` with the
partial mined count `min avail count` (the exhaustion is only logged, no
error result is produced). -/
theorem mine_result_spec :
    ∀ (avail count : Nat) (blockType : String),
      (mineRun avail count blockType).1.success = true ∧
      (mineRun avail count blockType).1.minedCount = min avail count ∧
      (mineRun avail count blockType).2 = min count (avail + 1) ∧
      mineMaxDistance = 64 := by
  intro avail count blockType
  have h := mineLoop_spec count avail
  unfold mineRun
  rw [h]
  exact ⟨rfl, rfl, rfl, rfl⟩

/-! ## Smelting wait loop (`furnaceManager.js`, SmeltingManager.waitForSmelting)

The promise is driven by furnace `update` events and three timers: a
5-minute overall cap registered first, a 30-second inactivity timer reset
on every update while the target is unmet, and a 2-second settle timer
armed once the observed output count reaches the target.  We model a run
as the list of update events `(time, outputCount)` delivered after the
initial synchronous `emit` at time 0, and simulate which timer or event
fires next (at equal times a timer beats a later-registered event, and the
earlier-registered overall cap beats the other timers). -/

def SMELT_MAX_MS : Nat := 300000

def SMELT_STALL_MS : Nat := 30000

def SMELT_SETTLE_MS : Nat := 2000

/-- The timer armed by the update handler: either the inactivity timer or
the completion settle timer, with its absolute expiry time. -/
inductive SmeltPending where
  | inact (t : Nat)
  | comp (t : Nat)
deriving DecidableEq, Repr

def pendTime : SmeltPending → Nat
  | .inact t => t
  | .comp t => t

/-- How the wait ends: resolve with the smelted count, reject for
inactivity, or reject at the overall cap. -/
inductive WaitOutcome where
  | success (smelted : Nat) (t : Nat)
  | stalled (t : Nat)
  | timeout (t : Nat)
deriving DecidableEq, Repr

/-- The `furnace.on('update')` handler at time `t` observing output count
`c`: raise the running maximum, then arm the settle timer if the target is
reached, else re-arm the inactivity timer. -/
def handleUpdate (n t c smelted : Nat) : Nat × SmeltPending :=
  let s := max smelted c
  if n ≤ s then (s, .comp (t + SMELT_SETTLE_MS))
  else (s, .inact (t + SMELT_STALL_MS))

/-- Fire whichever of the armed timer and the overall cap expires first
(the cap, registered first, wins ties). -/
def resolvePending (smelted : Nat) : SmeltPending → WaitOutcome
  | .comp t => if SMELT_MAX_MS ≤ t then .timeout SMELT_MAX_MS else .success smelted t
  | .inact t => if SMELT_MAX_MS ≤ t then .timeout SMELT_MAX_MS else .stalled t

/-- Deliver the remaining update events in time order; before each event
the armed timer and the overall cap get the chance to fire. -/
def simWait (n : Nat) : Nat → SmeltPending → List (Nat × Nat) → WaitOutcome
  | smelted, dl, [] => resolvePending smelted dl
  | smelted, dl, (te, c) :: rest =>
    if pendTime dl ≤ te ∨ SMELT_MAX_MS ≤ te then resolvePending smelted dl
    else
      let r := handleUpdate n te c smelted
      simWait n r.1 r.2 rest

/-- Model of `SmeltingManager.waitForSmelting(furnace, n)`: the initial synchronous
`emit('update')` at time 0 observes output count `c0`, then the event list
plays out. -/
def waitForSmelting (n c0 : Nat) (events : List (Nat × Nat)) : WaitOutcome :=
  let r := handleUpdate n 0 c0 0
  simWait n r.1 r.2 events

theorem resolvePending_spec (P : Nat → Prop) (n smelted : Nat) (dl : SmeltPending)
    (hcomp : ∀ t, dl = .comp t → n ≤ smelted)
    (hinact : ∀ t, dl = .inact t → ∃ t0, P t0 ∧ t = t0 + SMELT_STALL_MS) :
    (∀ s t, resolvePending smelted dl = .success s t → n ≤ s ∧ t < SMELT_MAX_MS) ∧
    (∀ t, resolvePending smelted dl = .stalled t →
      t < SMELT_MAX_MS ∧ ∃ t0, P t0 ∧ t = t0 + SMELT_STALL_MS) ∧
    (∀ t, resolvePending smelted dl = .timeout t → t = SMELT_MAX_MS) := by
  cases dl with
  | comp t =>
    by_cases hm : SMELT_MAX_MS ≤ t
    · refine ⟨?_, ?_, ?_⟩
      · intro s t' h
        rw [resolvePending, if_pos hm] at h
        exact WaitOutcome.noConfusion h
      · intro t' h
        rw [resolvePending, if_pos hm] at h
        exact WaitOutcome.noConfusion h
      · intro t' h
        rw [resolvePending, if_pos hm] at h
        injection h with h1
        exact h1.symm
    · refine ⟨?_, ?_, ?_⟩
      · intro s t' h
        rw [resolvePending, if_neg hm] at h
        injection h with h1 h2
        subst h1
        subst h2
        exact ⟨hcomp t rfl, by omega⟩
      · intro t' h
        rw [resolvePending, if_neg hm] at h
        exact WaitOutcome.noConfusion h
      · intro t' h
        rw [resolvePending, if_neg hm] at h
        exact WaitOutcome.noConfusion h
  | inact t =>
    by_cases hm : SMELT_MAX_MS ≤ t
    · refine ⟨?_, ?_, ?_⟩
      · intro s t' h
        rw [resolvePending, if_pos hm] at h
        exact WaitOutcome.noConfusion h
      · intro t' h
        rw [resolvePending, if_pos hm] at h
        exact WaitOutcome.noConfusion h
      · intro t' h
        rw [resolvePending, if_pos hm] at h
        injection h with h1
        exact h1.symm
    · refine ⟨?_, ?_, ?_⟩
      · intro s t' h
        rw [resolvePending, if_neg hm] at h
        exact WaitOutcome.noConfusion h
      · intro t' h
        rw [resolvePending, if_neg hm] at h
        injection h with h1
        subst h1
        exact ⟨by omega, hinact t rfl⟩
      · intro t' h
        rw [resolvePending, if_neg hm] at h
        exact WaitOutcome.noConfusion h

theorem simWait_spec (n : Nat) (allEvents : List (Nat × Nat)) :
    ∀ (events : List (Nat × Nat)) (smelted : Nat) (dl : SmeltPending),
      events ⊆ allEvents →
      (∀ t, dl = .comp t → n ≤ smelted) →
      (∀ t, dl = .inact t →
        ∃ t0, (t0 = 0 ∨ ∃ c, (t0, c) ∈ allEvents) ∧ t = t0 + SMELT_STALL_MS) →
      (∀ s t, simWait n smelted dl events = .success s t → n ≤ s ∧ t < SMELT_MAX_MS) ∧
      (∀ t, simWait n smelted dl events = .stalled t →
        t < SMELT_MAX_MS ∧
        ∃ t0, (t0 = 0 ∨ ∃ c, (t0, c) ∈ allEvents) ∧ t = t0 + SMELT_STALL_MS) ∧
      (∀ t, simWait n smelted dl events = .timeout t → t = SMELT_MAX_MS) := by
  intro events
  induction events with
  | nil =>
    intro smelted dl _ hcomp hinact
    exact resolvePending_spec _ n smelted dl hcomp hinact
  | cons e rest ih =>
    intro smelted dl hsub hcomp hinact
    obtain ⟨te, c⟩ := e
    rw [show simWait n smelted dl ((te, c) :: rest) =
        if pendTime dl ≤ te ∨ SMELT_MAX_MS ≤ te then resolvePending smelted dl
        else
          let r := handleUpdate n te c smelted
          simWait n r.1 r.2 rest from rfl]
    by_cases hfire : pendTime dl ≤ te ∨ SMELT_MAX_MS ≤ te
    · rw [if_pos hfire]
      exact resolvePending_spec _ n smelted dl hcomp hinact
    · rw [if_neg hfire]
      have hsub' : rest ⊆ allEvents := fun x hx => hsub (List.mem_cons_of_mem _ hx)
      unfold handleUpdate
      by_cases hn : n ≤ max smelted c
      · simp only [if_pos hn]
        refine ih (max smelted c) (.comp (te + SMELT_SETTLE_MS)) hsub' ?_ ?_
        · intro t _
          exact hn
        · intro t h
          exact SmeltPending.noConfusion h
      · simp only [if_neg hn]
        refine ih (max smelted c) (.inact (te + SMELT_STALL_MS)) hsub' ?_ ?_
        · intro t h
          exact SmeltPending.noConfusion h
        · intro t h
          injection h with h1
          exact ⟨te, Or.inr ⟨c, hsub (List.mem_cons_self _ _)⟩, h1.symm⟩

/-- C8 counterexample: with target 1 and furnace updates at 10 s, 20 s and
40 s that never show any output progress, the wait does not fail once
30 seconds pass without an increase (at 30 s); it keeps resetting the
inactivity timer on every (progress-free) update and only rejects at 70 s,
30 s after the last update event. -/
theorem waitForSmelting_resets_without_progress :
    waitForSmelting 1 0 [(10000, 0), (20000, 0), (40000, 0)] =
      WaitOutcome.stalled 70000 ∧
    30000 < 70000 := by
  constructor
  · rfl
  · decide

/-- C8 amended: the wait for an `n`-item smelt ends in exactly one of
three ways — success, resolved strictly before the 5-minute cap with a
reported count of at least `n`; an inactivity failure, strictly before the
cap, occurring exactly 30 seconds after some update event (or after the
start) — i.e. 30 s without any update, not 30 s without an increase; or
the 5-minute (300 000 ms) total cap. -/
theorem waitForSmelting_outcomes :
    ∀ (n c0 : Nat) (events : List (Nat × Nat)),
      (∀ s t, waitForSmelting n c0 events = .success s t →
        n ≤ s ∧ t < SMELT_MAX_MS) ∧
      (∀ t, waitForSmelting n c0 events = .stalled t →
        t < SMELT_MAX_MS ∧
        ∃ t0, (t0 = 0 ∨ ∃ c, (t0, c) ∈ events) ∧ t = t0 + SMELT_STALL_MS) ∧
      (∀ t, waitForSmelting n c0 events = .timeout t → t = SMELT_MAX_MS) := by
  intro n c0 events
  unfold waitForSmelting
  refine simWait_spec n events events _ _ (List.Subset.refl events) ?_ ?_
  · intro t h
    by_cases hn : n ≤ c0
    · simp [handleUpdate, hn]
    · simp [handleUpdate, hn] at h
  · intro t h
    by_cases hn : n ≤ c0
    · simp [handleUpdate, hn] at h
    · simp [handleUpdate, hn] at h
      exact ⟨0, Or.inl rfl, h.symm⟩

/-- C8 amended witness: the success hypothesis is satisfiable — with
target 2 met by the second update, the wait resolves 2 s later with count
2 ≥ 2, before the cap. -/
theorem waitForSmelting_outcomes_witness :
    waitForSmelting 2 0 [(10000, 1), (20000, 2)] = WaitOutcome.success 2 22000 ∧
    (2 ≤ 2 ∧ 22000 < SMELT_MAX_MS) :=
  ⟨by rfl, (waitForSmelting_outcomes 2 0 [(10000, 1), (20000, 2)]).1 2 22000 (by rfl)⟩

/-! ## Multi-step plan execution (`server.js`, processInGameCommand)

A step of a parsed multi-step command is abstracted as a function from
the world state to the new world state and the `result.success` flag of
`executeAction`. -/

/-- The step loop of `processInGameCommand`: run steps in order, stop at
the first whose result is not a success; returns the final world state and
how many steps were attempted. -/
def processSteps {W : Type} : List (W → W × Bool) → W → W × Nat
  | [], w => (w, 0)
  | s :: rest, w =>
    let r := s w
    if r.2 then
      let q := processSteps rest r.1
      (q.1, q.2 + 1)
    else (r.1, 1)

/-- The accumulated world effect of running a list of steps to completion. -/
def applySteps {W : Type} : List (W → W × Bool) → W → W
  | [], w => w
  | s :: rest, w => applySteps rest (s w).1

/-- All steps in the list report success when run in sequence from `w`. -/
def stepsSucceed {W : Type} : List (W → W × Bool) → W → Prop
  | [], _ => True
  | s :: rest, w => (s w).2 = true ∧ stepsSucceed rest (s w).1

/-- C9: when the steps before `s` all succeed and `s` fails, the plan
halts at `s`: exactly `pre.length + 1` steps are attempted — none of
`post` runs — and the final world state is the one left by the failing
step applied after all completed steps' effects, which are not rolled
back. -/
theorem processSteps_halts_on_failure {W : Type} :
    ∀ (pre : List (W → W × Bool)) (s : W → W × Bool) (post : List (W → W × Bool)) (w : W),
      stepsSucceed pre w → (s (applySteps pre w)).2 = false →
      processSteps (pre ++ s :: post) w = ((s (applySteps pre w)).1, pre.length + 1) := by
  intro pre
  induction pre with
  | nil =>
    intro s post w _ hfail
    simp only [List.nil_append, processSteps, applySteps] at hfail ⊢
    rw [hfail]
    simp
  | cons p rest ih =>
    intro s post w hok hfail
    obtain ⟨hp, hrest⟩ := hok
    have hfail' : (s (applySteps rest (p w).1)).2 = false := hfail
    simp only [List.cons_append, processSteps]
    rw [hp]
    simp only [if_true, List.append_eq]
    rw [ih s post (p w).1 hrest hfail']
    show _ = ((s (applySteps rest (p w).1)).1, (p :: rest).length + 1)
    simp [List.length_cons]

/-- C9 witness: a two-successor plan with a failing middle step over
`W := Nat` attempts exactly 2 steps and keeps the effects of both. -/
theorem processSteps_halts_on_failure_witness :
    stepsSucceed [fun n : Nat => (n + 1, true)] 0 ∧
    processSteps ([fun n : Nat => (n + 1, true)] ++
      (fun n : Nat => (n * 10, false)) :: [fun n : Nat => (n + 100, true)]) 0 =
      (10, 2) :=
  ⟨⟨rfl, trivial⟩, by
    have h := processSteps_halts_on_failure [fun n : Nat => (n + 1, true)]
      (fun n : Nat => (n * 10, false)) [fun n : Nat => (n + 100, true)] 0
      ⟨rfl, trivial⟩ rfl
    simpa [applySteps] using h⟩

end PhiCraft
